import Mathlib

/-!
Shallow embedding of `mr/viscosity.py` (trackpy): the Fischer film-viscosity
model, the Generalized Stokes-Einstein pipeline `gse`, and the log-log
smoother `log_derivatives` / `_parabolic_spline`.

Numeric arrays are embedded as `List ℝ`; machine floats are idealised as
real numbers.  Fallible behaviour (the `assert` in `log_derivatives`) is
embedded with `Option`.  `np.polynomial.polynomial.polyfit(x, f, deg=2,
w=weights)` minimises `Σ_j (w_j * (p(x_j) - f_j))^2`; for the exact-real
model we take the solution of the weighted normal equations
`Vᵀ diag(w²) V c = Vᵀ diag(w²) f`, expressed through Cramer's rule on the
3×3 system (so the moment sums below carry the squared Gaussian weights).
-/

noncomputable section

/-- Model of `np.arctan2 y x`: the standard four-quadrant arctangent, matching the
branch conventions of the numpy function used in `fischer`. -/
def arctan2 (y x : ℝ) : ℝ :=
  if 0 < x then Real.arctan (y / x)
  else if x < 0 then
    (if 0 ≤ y then Real.arctan (y / x) + Real.pi else Real.arctan (y / x) - Real.pi)
  else
    (if 0 < y then Real.pi / 2 else if y < 0 then -(Real.pi / 2) else 0)

/-- The Gaussian weight `np.exp(-(x - x0)**2/(2*width**2))` computed in
`_parabolic_spline` for one sample `u` of `x`. -/
def gaussWeight (x0 width u : ℝ) : ℝ :=
  Real.exp (-(u - x0) ^ 2 / (2 * width ^ 2))

/-- Squared Gaussian weight: the weight with which a sample enters the
normal equations of the weighted least-squares fit (numpy's `polyfit`
applies `w` to the unsquared residuals, so `w²` appears in the moments). -/
def wsq (x0 width u : ℝ) : ℝ :=
  (gaussWeight x0 width u) ^ 2

/-- Weighted moment `S_k = Σ_j w_j² · x_j^k` over the sample list. -/
def momS (x0 width : ℝ) (k : ℕ) : List ℝ → ℝ
  | [] => 0
  | u :: us => wsq x0 width u * u ^ k + momS x0 width k us

/-- Weighted data moment `T_k = Σ_j w_j² · x_j^k · f_j` over the paired
sample lists (pairing truncates at the shorter list, as `zip` does). -/
def momT (x0 width : ℝ) (k : ℕ) : List ℝ → List ℝ → ℝ
  | [], _ => 0
  | _ :: _, [] => 0
  | u :: us, v :: vs => wsq x0 width u * u ^ k * v + momT x0 width k us vs

/-- Determinant of a 3×3 matrix given row by row. -/
def det3 (a11 a12 a13 a21 a22 a23 a31 a32 a33 : ℝ) : ℝ :=
  a11 * (a22 * a33 - a23 * a32) - a12 * (a21 * a33 - a23 * a31)
    + a13 * (a21 * a32 - a22 * a31)

/-- Gram determinant of the weighted normal equations for the degree-2 fit. -/
def gramDet (x : List ℝ) (x0 width : ℝ) : ℝ :=
  det3 (momS x0 width 0 x) (momS x0 width 1 x) (momS x0 width 2 x)
       (momS x0 width 1 x) (momS x0 width 2 x) (momS x0 width 3 x)
       (momS x0 width 2 x) (momS x0 width 3 x) (momS x0 width 4 x)

/-- Cramer numerator for the constant coefficient `c`. -/
def cNum (x f : List ℝ) (x0 width : ℝ) : ℝ :=
  det3 (momT x0 width 0 x f) (momS x0 width 1 x) (momS x0 width 2 x)
       (momT x0 width 1 x f) (momS x0 width 2 x) (momS x0 width 3 x)
       (momT x0 width 2 x f) (momS x0 width 3 x) (momS x0 width 4 x)

/-- Cramer numerator for the linear coefficient `b`. -/
def bNum (x f : List ℝ) (x0 width : ℝ) : ℝ :=
  det3 (momS x0 width 0 x) (momT x0 width 0 x f) (momS x0 width 2 x)
       (momS x0 width 1 x) (momT x0 width 1 x f) (momS x0 width 3 x)
       (momS x0 width 2 x) (momT x0 width 2 x f) (momS x0 width 4 x)

/-- Cramer numerator for the quadratic coefficient `a`. -/
def aNum (x f : List ℝ) (x0 width : ℝ) : ℝ :=
  det3 (momS x0 width 0 x) (momS x0 width 1 x) (momT x0 width 0 x f)
       (momS x0 width 1 x) (momS x0 width 2 x) (momT x0 width 1 x f)
       (momS x0 width 2 x) (momS x0 width 3 x) (momT x0 width 2 x f)

/-- Model of `_parabolic_spline(x, f, x0, width)`: fit a parabola to `f(x)` near
`x0` by Gaussian-weighted least squares and return the coefficients
`(c, b, a)` with `f(x) ≈ a·x² + b·x + c` (the order numpy's `polyfit`
returns them in). -/
def parabolic_spline (x f : List ℝ) (x0 width : ℝ) : ℝ × ℝ × ℝ :=
  (cNum x f x0 width / gramDet x x0 width,
   bNum x f x0 width / gramDet x x0 width,
   aNum x f x0 width / gramDet x x0 width)

/-- The loop body of `log_derivatives`: the source allocates one array by
the chained assignment `smooth_f = df = ddf = np.zeros_like(f)`, so all
three names alias one buffer; for each index `i` the loop stores the
smoothed value, then the first derivative, then `2*a`, each write landing
in the same slot `i` of the same buffer. -/
def ldLoop (lx lf : List ℝ) (width : ℝ) : List ℝ :=
  (List.range lx.length).foldl
    (fun arr i =>
      ((arr.set i (Real.exp ((parabolic_spline lx lf (lx.getD i 0) width).2.2 * lx.getD i 0 ^ 2
            + (parabolic_spline lx lf (lx.getD i 0) width).2.1 * lx.getD i 0
            + (parabolic_spline lx lf (lx.getD i 0) width).1))).set i
          (2 * (parabolic_spline lx lf (lx.getD i 0) width).2.2 * lx.getD i 0
            + (parabolic_spline lx lf (lx.getD i 0) width).2.1)).set i
        (2 * (parabolic_spline lx lf (lx.getD i 0) width).2.2))
    (List.replicate lx.length 0)

/-- Model of `log_derivatives(x, f, width)`: asserts `len(x) == len(f)` (modelled
as `none`), takes elementwise logs, runs the per-point parabola fits, and
returns the triple `(smooth_f, df, ddf)`.  Because the three names alias
one array in the source, the same list is returned three times. -/
def log_derivatives (x f : List ℝ) (width : ℝ) : Option (List ℝ × List ℝ × List ℝ) :=
  if x.length = f.length then
    some (ldLoop (x.map Real.log) (f.map Real.log) width,
          ldLoop (x.map Real.log) (f.map Real.log) width,
          ldLoop (x.map Real.log) (f.map Real.log) width)
  else none

/-- Intermediate `d = a*(np.cos(contact_angle*pi/180) - 1)` of `fischer`. -/
def fischer_d (a contact_angle : ℝ) : ℝ :=
  a * (Real.cos (contact_angle * Real.pi / 180) - 1)

/-- Intermediate `c0 = 6*pi*np.sqrt(np.tanh(32*(d/a + 2)/(9*pi**2)))` of `fischer`. -/
def fischer_c0 (a contact_angle : ℝ) : ℝ :=
  6 * Real.pi * Real.sqrt (Real.tanh (32 * (fischer_d a contact_angle / a + 2)
    / (9 * Real.pi ^ 2)))

/-- Intermediate `c1 = -4*np.log((2/pi)*np.arctan2((d + 2*a), (3*a)))` of `fischer`. -/
def fischer_c1 (a contact_angle : ℝ) : ℝ :=
  -4 * Real.log ((2 / Real.pi) * arctan2 (fischer_d a contact_angle + 2 * a) (3 * a))

/-- Model of `fischer(D, a, contact_angle, bulk_visc, T)`: Fischer-model film
viscosity.  `kT = 4.1e-9*T/298.`, the bulk viscosity is rescaled by
`1e-6`, and the result is `(kT/D - bulk_visc*a*c0)/c1`.  The source only
adds logging around this computation. -/
def fischer (D a contact_angle bulk_visc T : ℝ) : ℝ :=
  (4.1e-9 * T / 298 / D - bulk_visc * 1e-6 * a * fischer_c0 a contact_angle)
    / fischer_c1 a contact_angle

/-- Elementwise combination of three equal-length arrays, as numpy's
broadcasting does for the arithmetic in `gse` (truncating at the shortest
list, which never differs in the calls made here). -/
def zipWith3 (h : ℝ → ℝ → ℝ → ℝ) : List ℝ → List ℝ → List ℝ → List ℝ
  | a :: as, b :: bs, c :: cs => h a b c :: zipWith3 h as bs cs
  | _, _, _ => []

/-- Elementwise `G_s = (DIM/3.)*kT/(pi*a) / (f*special.gamma(1 + df)*(1 + ddf/2.))`
with `DIM = 2`, evaluated elementwise in `gse`. -/
def gse_G_s (kT a : ℝ) (f df ddf : List ℝ) : List ℝ :=
  zipWith3 (fun fi dfi ddfi =>
    (2 / 3) * kT / (Real.pi * a) / (fi * Real.Gamma (1 + dfi) * (1 + ddfi / 2)))
    f df ddf

/-- Elementwise `Gp = g/(1. + ddg) * (np.cos(pi/2*dg) - (pi/2-1)*dg*ddg)`: the storage
modulus of `gse` before noise-floor clipping. -/
def Gp_raw (g dg ddg : List ℝ) : List ℝ :=
  zipWith3 (fun gi dgi ddgi =>
    gi / (1 + ddgi) * (Real.cos (Real.pi / 2 * dgi) - (Real.pi / 2 - 1) * dgi * ddgi))
    g dg ddg

/-- Elementwise `Gpp = g/(1. + ddg) * (np.sin(pi/2*dg) - (pi/2-1)*(1 - dg)*ddg)`: the
loss modulus of `gse` before noise-floor clipping. -/
def Gpp_raw (g dg ddg : List ℝ) : List ℝ :=
  zipWith3 (fun gi dgi ddgi =>
    gi / (1 + ddgi) * (Real.sin (Real.pi / 2 * dgi) - (Real.pi / 2 - 1) * (1 - dgi) * ddgi))
    g dg ddg

/-- Model of `v[v < clip*G_s] = 0`: elementwise conditional zeroing against the
noise floor, leaving all other entries unchanged. -/
def clipBelow (clip : ℝ) (G_s v : List ℝ) : List ℝ :=
  List.zipWith (fun gsi vi => if vi < clip * gsi then (0 : ℝ) else vi) G_s v

/-- Model of `gse(t, r2, a, T, clip, width)`: Generalized Stokes-Einstein.
Frequencies `w = s = 1/t`; two smoothing passes; noise-floor clipping of
both modulus components; returns `(w, G_s, Gp, Gpp)`.  NOTE faithful to
the source: both calls are `log_derivatives(t, r2)` and
`log_derivatives(s, G_s)` with no `width` argument, so they always use
the default `0.7`, never the caller's `width`.  The two `logger.warning`
quality checks alter no data and are omitted. -/
def gse (t r2 : List ℝ) (a T clip width : ℝ) : Option (List ℝ × List ℝ × List ℝ × List ℝ) :=
  match log_derivatives t r2 0.7 with
  | none => none
  | some (f, df, ddf) =>
    match log_derivatives (t.map (fun ti => 1 / ti))
        (gse_G_s (4.1e-9 * T / 298) a f df ddf) 0.7 with
    | none => none
    | some (g, dg, ddg) =>
      some (t.map (fun ti => 1 / ti),
            gse_G_s (4.1e-9 * T / 298) a f df ddf,
            clipBelow clip (gse_G_s (4.1e-9 * T / 298) a f df ddf) (Gp_raw g dg ddg),
            clipBelow clip (gse_G_s (4.1e-9 * T / 298) a f df ddf) (Gpp_raw g dg ddg))

end

section ListHelpers

/-- Reading back a `set` at the written index. -/
theorem getD_set_self (l : List ℝ) (i : ℕ) (v : ℝ) (h : i < l.length) :
    (l.set i v).getD i 0 = v := by
  rw [List.getD_eq_getElem _ _ (by simpa using h)]
  exact List.getElem_set_self (by simpa using h)

/-- Reading back a `set` at a different index. -/
theorem getD_set_ne (l : List ℝ) (i j : ℕ) (v : ℝ) (h : i ≠ j) :
    (l.set i v).getD j 0 = l.getD j 0 := by
  by_cases hj : j < l.length
  · rw [List.getD_eq_getElem _ _ (by simpa using hj),
        List.getD_eq_getElem _ _ hj]
    exact List.getElem_set_ne h _
  · rw [List.getD_eq_default _ _ (by simp; omega),
        List.getD_eq_default _ _ (by omega)]

/-- Folding a list of triple-writes: each step collapses to a single
`set` with the last value, and position `j` ends at `e₃ j` when `j`
occurs among the visited indices. -/
theorem foldl_set3_getD (e₁ e₂ e₃ : ℕ → ℝ) :
    ∀ (L : List ℕ) (arr : List ℝ) (j : ℕ), j < arr.length →
      (L.foldl (fun arr i => ((arr.set i (e₁ i)).set i (e₂ i)).set i (e₃ i)) arr).getD j 0
        = if j ∈ L then e₃ j else arr.getD j 0 := by
  intro L
  induction L with
  | nil => intro arr j hj; simp
  | cons i L ih =>
    intro arr j hj
    rw [List.foldl_cons, List.set_set, List.set_set, ih _ j (by simpa using hj)]
    by_cases hmem : j ∈ L
    · simp [hmem]
    · by_cases hij : j = i
      · subst hij
        rw [if_neg hmem, if_pos (List.mem_cons_self j L),
            getD_set_self arr j (e₃ j) hj]
      · rw [if_neg hmem, getD_set_ne arr i j (e₃ i) (fun h => hij h.symm),
            if_neg (by simp [hij, hmem])]

/-- The triple-write fold preserves the length of the buffer. -/
theorem foldl_set3_length (e₁ e₂ e₃ : ℕ → ℝ) :
    ∀ (L : List ℕ) (arr : List ℝ),
      (L.foldl (fun arr i => ((arr.set i (e₁ i)).set i (e₂ i)).set i (e₃ i)) arr).length
        = arr.length := by
  intro L
  induction L with
  | nil => intro arr; simp
  | cons i L ih => intro arr; rw [List.foldl_cons, ih]; simp

/-- Reading through `map` below the length. -/
theorem getD_map (g : ℝ → ℝ) (l : List ℝ) (i : ℕ) (h : i < l.length) :
    (l.map g).getD i 0 = g (l.getD i 0) := by
  rw [List.getD_eq_getElem _ _ (by simpa using h), List.getD_eq_getElem _ _ h]
  simp

end ListHelpers

section LdLoopLemmas

/-- Length of the smoother's output buffer. -/
theorem ldLoop_length (lx lf : List ℝ) (width : ℝ) :
    (ldLoop lx lf width).length = lx.length := by
  unfold ldLoop
  rw [foldl_set3_length]
  simp

/-- Every slot of the returned buffer holds the last value written there:
twice the quadratic coefficient of the local fit. -/
theorem ldLoop_getD (lx lf : List ℝ) (width : ℝ) (j : ℕ) (hj : j < lx.length) :
    (ldLoop lx lf width).getD j 0
      = 2 * (parabolic_spline lx lf (lx.getD j 0) width).2.2 := by
  unfold ldLoop
  rw [foldl_set3_getD _ _ _ _ _ j (by simpa using hj)]
  simp [List.mem_range, hj]

/-- The buffer produced by the loop, as a map over indices. -/
theorem ldLoop_eq_map (lx lf : List ℝ) (width : ℝ) :
    ldLoop lx lf width
      = (List.range lx.length).map
          (fun i => 2 * (parabolic_spline lx lf (lx.getD i 0) width).2.2) := by
  apply List.ext_getElem
  · rw [ldLoop_length]; simp
  · intro j h1 h2
    have hj : j < lx.length := by rw [ldLoop_length] at h1; exact h1
    have := ldLoop_getD lx lf width j hj
    rw [List.getD_eq_getElem _ _ h1] at this
    rw [this]
    simp

end LdLoopLemmas

section ShiftLemmas

/-- The Gaussian weight depends only on the offset from the centre. -/
theorem wsq_shift (x0 w δ u : ℝ) : wsq (x0 + δ) w (u + δ) = wsq x0 w u := by
  unfold wsq gaussWeight
  have h : u + δ - (x0 + δ) = u - x0 := by ring
  rw [h]

/-- Moment `S_0` under a common shift of samples and centre. -/
theorem momS0_shift (x0 w δ : ℝ) (lx : List ℝ) :
    momS (x0 + δ) w 0 (lx.map (fun u => u + δ)) = momS x0 w 0 lx := by
  induction lx with
  | nil => simp [momS]
  | cons u us ih =>
    simp only [List.map_cons, momS]
    rw [wsq_shift, ih]
    ring

/-- Moment `S_1` under a common shift of samples and centre. -/
theorem momS1_shift (x0 w δ : ℝ) (lx : List ℝ) :
    momS (x0 + δ) w 1 (lx.map (fun u => u + δ))
      = momS x0 w 1 lx + δ * momS x0 w 0 lx := by
  induction lx with
  | nil => simp [momS]
  | cons u us ih =>
    simp only [List.map_cons, momS]
    rw [wsq_shift, ih]
    ring

/-- Moment `S_2` under a common shift of samples and centre. -/
theorem momS2_shift (x0 w δ : ℝ) (lx : List ℝ) :
    momS (x0 + δ) w 2 (lx.map (fun u => u + δ))
      = momS x0 w 2 lx + 2 * δ * momS x0 w 1 lx + δ ^ 2 * momS x0 w 0 lx := by
  induction lx with
  | nil => simp [momS]
  | cons u us ih =>
    simp only [List.map_cons, momS]
    rw [wsq_shift, ih]
    ring

/-- Moment `S_3` under a common shift of samples and centre. -/
theorem momS3_shift (x0 w δ : ℝ) (lx : List ℝ) :
    momS (x0 + δ) w 3 (lx.map (fun u => u + δ))
      = momS x0 w 3 lx + 3 * δ * momS x0 w 2 lx + 3 * δ ^ 2 * momS x0 w 1 lx
        + δ ^ 3 * momS x0 w 0 lx := by
  induction lx with
  | nil => simp [momS]
  | cons u us ih =>
    simp only [List.map_cons, momS]
    rw [wsq_shift, ih]
    ring

/-- Moment `S_4` under a common shift of samples and centre. -/
theorem momS4_shift (x0 w δ : ℝ) (lx : List ℝ) :
    momS (x0 + δ) w 4 (lx.map (fun u => u + δ))
      = momS x0 w 4 lx + 4 * δ * momS x0 w 3 lx + 6 * δ ^ 2 * momS x0 w 2 lx
        + 4 * δ ^ 3 * momS x0 w 1 lx + δ ^ 4 * momS x0 w 0 lx := by
  induction lx with
  | nil => simp [momS]
  | cons u us ih =>
    simp only [List.map_cons, momS]
    rw [wsq_shift, ih]
    ring

/-- Data moment `T_0` under a common shift of samples and centre. -/
theorem momT0_shift (x0 w δ : ℝ) (lx lf : List ℝ) :
    momT (x0 + δ) w 0 (lx.map (fun u => u + δ)) lf = momT x0 w 0 lx lf := by
  induction lx generalizing lf with
  | nil => simp [momT]
  | cons u us ih =>
    cases lf with
    | nil => simp [momT]
    | cons v vs =>
      simp only [List.map_cons, momT]
      rw [wsq_shift, ih]
      ring

/-- Data moment `T_1` under a common shift of samples and centre. -/
theorem momT1_shift (x0 w δ : ℝ) (lx lf : List ℝ) :
    momT (x0 + δ) w 1 (lx.map (fun u => u + δ)) lf
      = momT x0 w 1 lx lf + δ * momT x0 w 0 lx lf := by
  induction lx generalizing lf with
  | nil => simp [momT]
  | cons u us ih =>
    cases lf with
    | nil => simp [momT]
    | cons v vs =>
      simp only [List.map_cons, momT]
      rw [wsq_shift, ih]
      ring

/-- Data moment `T_2` under a common shift of samples and centre. -/
theorem momT2_shift (x0 w δ : ℝ) (lx lf : List ℝ) :
    momT (x0 + δ) w 2 (lx.map (fun u => u + δ)) lf
      = momT x0 w 2 lx lf + 2 * δ * momT x0 w 1 lx lf + δ ^ 2 * momT x0 w 0 lx lf := by
  induction lx generalizing lf with
  | nil => simp [momT]
  | cons u us ih =>
    cases lf with
    | nil => simp [momT]
    | cons v vs =>
      simp only [List.map_cons, momT]
      rw [wsq_shift, ih]
      ring

/-- Data moment under a common additive shift of all data values. -/
theorem momT_fshift (x0 w γ : ℝ) (k : ℕ) (lx lf : List ℝ)
    (hlen : lx.length = lf.length) :
    momT x0 w k lx (lf.map (fun v => v + γ))
      = momT x0 w k lx lf + γ * momS x0 w k lx := by
  induction lx generalizing lf with
  | nil => simp [momT, momS]
  | cons u us ih =>
    cases lf with
    | nil => simp at hlen
    | cons v vs =>
      simp only [List.map_cons, momT, momS]
      rw [ih vs (by simpa using hlen)]
      ring

/-- The Gram determinant is invariant under a common shift of samples and
centre (the shift acts as a unimodular congruence on the normal matrix). -/
theorem gramDet_xshift (x0 w δ : ℝ) (lx : List ℝ) :
    gramDet (lx.map (fun u => u + δ)) (x0 + δ) w = gramDet lx x0 w := by
  unfold gramDet
  rw [momS0_shift, momS1_shift, momS2_shift, momS3_shift, momS4_shift]
  unfold det3
  ring

/-- The Cramer numerator of the quadratic coefficient is invariant under a
common shift of samples and centre. -/
theorem aNum_xshift (x0 w δ : ℝ) (lx lf : List ℝ) :
    aNum (lx.map (fun u => u + δ)) lf (x0 + δ) w = aNum lx lf x0 w := by
  unfold aNum
  rw [momS0_shift, momS1_shift, momS2_shift, momS3_shift,
      momT0_shift, momT1_shift, momT2_shift]
  unfold det3
  ring

/-- The Cramer numerator of the quadratic coefficient is invariant under a
common additive shift of the data values. -/
theorem aNum_fshift (x0 w γ : ℝ) (lx lf : List ℝ) (hlen : lx.length = lf.length) :
    aNum lx (lf.map (fun v => v + γ)) x0 w = aNum lx lf x0 w := by
  unfold aNum
  rw [momT_fshift _ _ _ _ _ _ hlen, momT_fshift _ _ _ _ _ _ hlen,
      momT_fshift _ _ _ _ _ _ hlen]
  unfold det3
  ring

/-- The quadratic fit coefficient is invariant under a common shift of
samples and centre. -/
theorem aCoeff_xshift (x0 w δ : ℝ) (lx lf : List ℝ) :
    (parabolic_spline (lx.map (fun u => u + δ)) lf (x0 + δ) w).2.2
      = (parabolic_spline lx lf x0 w).2.2 := by
  unfold parabolic_spline
  rw [aNum_xshift, gramDet_xshift]

/-- The quadratic fit coefficient is invariant under a common additive
shift of the data values. -/
theorem aCoeff_fshift (x0 w γ : ℝ) (lx lf : List ℝ) (hlen : lx.length = lf.length) :
    (parabolic_spline lx (lf.map (fun v => v + γ)) x0 w).2.2
      = (parabolic_spline lx lf x0 w).2.2 := by
  unfold parabolic_spline
  rw [aNum_fshift _ _ _ _ _ hlen]

/-- Shifting samples and centres together leaves the smoother's buffer
unchanged (the loop's centres come from the sample list itself). -/
theorem ldLoop_xshift (δ w : ℝ) (lx lf : List ℝ) :
    ldLoop (lx.map (fun u => u + δ)) lf w = ldLoop lx lf w := by
  rw [ldLoop_eq_map, ldLoop_eq_map, List.length_map]
  apply List.map_congr_left
  intro i hi
  have hilt : i < lx.length := List.mem_range.mp hi
  rw [getD_map _ _ _ hilt, aCoeff_xshift]

/-- Shifting all data values leaves the smoother's buffer unchanged. -/
theorem ldLoop_fshift (γ w : ℝ) (lx lf : List ℝ) (hlen : lx.length = lf.length) :
    ldLoop lx (lf.map (fun v => v + γ)) w = ldLoop lx lf w := by
  rw [ldLoop_eq_map, ldLoop_eq_map]
  apply List.map_congr_left
  intro i hi
  rw [aCoeff_fshift _ _ _ _ _ hlen]

end ShiftLemmas

section FitEvaluation

/-- The data moments vanish when every data value is zero. -/
theorem momT_zero_data (x0 w : ℝ) (k : ℕ) (lx lf : List ℝ)
    (hf : ∀ v ∈ lf, v = 0) : momT x0 w k lx lf = 0 := by
  induction lx generalizing lf with
  | nil => simp [momT]
  | cons u us ih =>
    cases lf with
    | nil => simp [momT]
    | cons v vs =>
      simp only [momT]
      rw [hf v (by simp), ih vs (fun y hy => hf y (by simp [hy]))]
      ring

/-- On identically-zero data the weighted least-squares parabola is the
zero polynomial: `(c, b, a) = (0, 0, 0)`. -/
theorem ps_zero_data (lx lf : List ℝ) (x0 w : ℝ) (hf : ∀ v ∈ lf, v = 0) :
    parabolic_spline lx lf x0 w = (0, 0, 0) := by
  unfold parabolic_spline cNum bNum aNum
  rw [momT_zero_data _ _ _ _ _ hf, momT_zero_data _ _ _ _ _ hf,
      momT_zero_data _ _ _ _ _ hf]
  have hz : ∀ s1 s2 s3 s4 s5 s6 : ℝ,
      det3 0 s1 s2 0 s3 s4 0 s5 s6 = 0 := by
    intro s1 s2 s3 s4 s5 s6; unfold det3; ring
  have hz2 : ∀ s1 s2 s3 s4 s5 s6 : ℝ,
      det3 s1 0 s2 s3 0 s4 s5 0 s6 = 0 := by
    intro s1 s2 s3 s4 s5 s6; unfold det3; ring
  have hz3 : ∀ s1 s2 s3 s4 s5 s6 : ℝ,
      det3 s1 s2 0 s3 s4 0 s5 s6 0 = 0 := by
    intro s1 s2 s3 s4 s5 s6; unfold det3; ring
  rw [hz, hz2, hz3]
  simp

/-- On identically-zero data every slot of the smoother's buffer stays 0. -/
theorem ldLoop_zero_data (lx lf : List ℝ) (w : ℝ) (hf : ∀ v ∈ lf, v = 0) :
    ldLoop lx lf w = List.replicate lx.length 0 := by
  rw [ldLoop_eq_map]
  have : ∀ i ∈ List.range lx.length,
      2 * (parabolic_spline lx lf (lx.getD i 0) w).2.2 = (fun _ : ℕ => (0:ℝ)) i := by
    intro i _
    rw [ps_zero_data _ _ _ _ hf]
    norm_num
  rw [List.map_congr_left this, List.map_const']
  simp

/-- The weights at the three sample points `0`, `1`, `2` are positive. -/
theorem wsq_pos (x0 w u : ℝ) : 0 < wsq x0 w u := by
  unfold wsq gaussWeight
  positivity

/-- On the exactly linear log-log data `u = [0,1,2]`, `f = [0,1,2]` the
weighted least-squares parabola is exactly the line `u`, whatever the
centre and bandwidth: `(c, b, a) = (0, 1, 0)`. -/
theorem ps_linear_012 (x0 w : ℝ) :
    parabolic_spline [0, 1, 2] [0, 1, 2] x0 w = (0, 1, 0) := by
  have hp := wsq_pos x0 w 0
  have hq := wsq_pos x0 w 1
  have hr := wsq_pos x0 w 2
  have hS0 : momS x0 w 0 [0, 1, 2] = wsq x0 w 0 + wsq x0 w 1 + wsq x0 w 2 := by
    simp only [momS]; ring
  have hS1 : momS x0 w 1 [0, 1, 2] = wsq x0 w 1 + 2 * wsq x0 w 2 := by
    simp only [momS]; ring
  have hS2 : momS x0 w 2 [0, 1, 2] = wsq x0 w 1 + 4 * wsq x0 w 2 := by
    simp only [momS]; ring
  have hS3 : momS x0 w 3 [0, 1, 2] = wsq x0 w 1 + 8 * wsq x0 w 2 := by
    simp only [momS]; ring
  have hS4 : momS x0 w 4 [0, 1, 2] = wsq x0 w 1 + 16 * wsq x0 w 2 := by
    simp only [momS]; ring
  have hT0 : momT x0 w 0 [0, 1, 2] [0, 1, 2] = wsq x0 w 1 + 2 * wsq x0 w 2 := by
    simp only [momT]; ring
  have hT1 : momT x0 w 1 [0, 1, 2] [0, 1, 2] = wsq x0 w 1 + 4 * wsq x0 w 2 := by
    simp only [momT]; ring
  have hT2 : momT x0 w 2 [0, 1, 2] [0, 1, 2] = wsq x0 w 1 + 8 * wsq x0 w 2 := by
    simp only [momT]; ring
  unfold parabolic_spline cNum bNum aNum gramDet
  rw [hS0, hS1, hS2, hS3, hS4, hT0, hT1, hT2]
  set p := wsq x0 w 0
  set q := wsq x0 w 1
  set r := wsq x0 w 2
  have hΔ : (0:ℝ) < det3 (p + q + r) (q + 2*r) (q + 4*r) (q + 2*r) (q + 4*r)
      (q + 8*r) (q + 4*r) (q + 8*r) (q + 16*r) := by
    have h4 : det3 (p + q + r) (q + 2*r) (q + 4*r) (q + 2*r) (q + 4*r)
        (q + 8*r) (q + 4*r) (q + 8*r) (q + 16*r) = 4 * p * q * r := by
      unfold det3; ring
    rw [h4]; positivity
  simp only [Prod.mk.injEq]
  refine ⟨?_, ?_, ?_⟩
  · rw [div_eq_zero_iff]; left; unfold det3; ring
  · rw [div_eq_one_iff_eq (ne_of_gt hΔ)]
  · rw [div_eq_zero_iff]; left; unfold det3; ring

end FitEvaluation

section ConcreteEvaluation

/-- On matching lengths the smoother returns its shared buffer thrice. -/
theorem log_derivatives_some (x f : List ℝ) (w : ℝ) (hlen : x.length = f.length) :
    log_derivatives x f w
      = some (ldLoop (x.map Real.log) (f.map Real.log) w,
              ldLoop (x.map Real.log) (f.map Real.log) w,
              ldLoop (x.map Real.log) (f.map Real.log) w) := by
  unfold log_derivatives
  rw [if_pos hlen]

/-- Logs of the geometric sample points `1, e, e²`. -/
theorem log_geom_samples :
    ([1, Real.exp 1, Real.exp 2] : List ℝ).map Real.log = [0, 1, 2] := by
  simp [Real.log_exp]

/-- Logs of the constant-one data. -/
theorem log_ones : ([1, 1, 1] : List ℝ).map Real.log = [0, 0, 0] := by
  simp

/-- The smoother's buffer on the constant data `f = [1,1,1]` over
`x = [1, e, e²]`. -/
theorem ldLoop_const_data (w : ℝ) : ldLoop [0, 1, 2] [0, 0, 0] w = [0, 0, 0] := by
  rw [ldLoop_zero_data _ _ _ (by intro v hv; simpa using hv)]
  rfl

/-- The smoother's buffer on the exact power-law data `f = x` (in log-log
coordinates the line `[0,1,2]` over `[0,1,2]`). -/
theorem ldLoop_linear_data (w : ℝ) : ldLoop [0, 1, 2] [0, 1, 2] w = [0, 0, 0] := by
  rw [ldLoop_eq_map]
  have h : ∀ i ∈ List.range ([0, 1, 2] : List ℝ).length,
      2 * (parabolic_spline [0, 1, 2] [0, 1, 2] (([0, 1, 2] : List ℝ).getD i 0) w).2.2
        = (fun _ : ℕ => (0:ℝ)) i := by
    intro i _
    rw [ps_linear_012]
    norm_num
  rw [List.map_congr_left h, List.map_const']
  rfl

end ConcreteEvaluation

/-- Claim C1: the spec says `log_derivatives` returns, at index `i`, the
smoothed value `exp(a·u0² + b·u0 + c)`, the first log-derivative
`2·a·u0 + b`, and the second `2·a`, for the Gaussian-weighted fit
`(c, b, a)` at `u0 = log x[i]`.  The code instead aliases all three output
arrays to one buffer (`smooth_f = df = ddf = np.zeros_like(f)`), so the
final `ddf` write overwrites the others.  Concretely, for
`x = [1, e, e²]`, `f = [1, 1, 1]` the fit at index 0 is `(c, b, a) =
(0, 0, 0)`, the spec's smoothed value is `exp 0 = 1`, yet the function
returns `0` in the smoothed slot. -/
theorem c1_smoothed_value_bug :
    log_derivatives [1, Real.exp 1, Real.exp 2] [1, 1, 1] 0.7
        = some ([0, 0, 0], [0, 0, 0], [0, 0, 0]) ∧
    parabolic_spline (([1, Real.exp 1, Real.exp 2] : List ℝ).map Real.log)
        (([1, 1, 1] : List ℝ).map Real.log) 0 0.7 = (0, 0, 0) ∧
    Real.exp ((0:ℝ) * 0 ^ 2 + 0 * 0 + 0) = 1 ∧ ((0:ℝ) ≠ 1) := by
  refine ⟨?_, ?_, by norm_num, by norm_num⟩
  · rw [log_derivatives_some _ _ _ (by simp), log_geom_samples, log_ones,
        ldLoop_const_data]
  · rw [log_geom_samples, log_ones]
    exact ps_zero_data _ _ _ _ (by intro v hv; simpa using hv)

/-- Claim C2: the three sequences returned by `log_derivatives` are the
same list (one shared buffer in the source), and each entry `i` equals
`2·a_i`, twice the quadratic coefficient of the local fit at point `i`. -/
theorem c2_shared_buffer (x f : List ℝ) (width : ℝ) (hlen : x.length = f.length) :
    ∃ v, log_derivatives x f width = some (v, v, v) ∧
      ∀ i, i < x.length →
        v.getD i 0 = 2 * (parabolic_spline (x.map Real.log) (f.map Real.log)
          ((x.map Real.log).getD i 0) width).2.2 := by
  refine ⟨ldLoop (x.map Real.log) (f.map Real.log) width,
    log_derivatives_some x f width hlen, ?_⟩
  intro i hi
  exact ldLoop_getD _ _ _ i (by simpa using hi)

/-- Claim C2 witness at the one-point curve `x = f = [1]`. -/
theorem c2_shared_buffer_witness :
    ∃ v, log_derivatives [(1:ℝ)] [(1:ℝ)] 0.7 = some (v, v, v) ∧
      ∀ i, i < ([(1:ℝ)] : List ℝ).length →
        v.getD i 0 = 2 * (parabolic_spline (([(1:ℝ)] : List ℝ).map Real.log)
          (([(1:ℝ)] : List ℝ).map Real.log)
          ((([(1:ℝ)] : List ℝ).map Real.log).getD i 0) 0.7).2.2 :=
  c2_shared_buffer [1] [1] 0.7 rfl

/-- Claim C3: on the noise-free power law `f(x) = x` (k = 1, p = 1)
sampled at `x = [1, e, e²]`, the spec says the returned first
log-derivative is `p = 1` at the interior point.  The fit at the interior
centre `u0 = 1` is indeed the exact line `(c, b, a) = (0, 1, 0)` — whose
first log-derivative `2·a·u0 + b = 1` recovers the exponent — but
because of the aliased output buffer the function returns `2·a = 0`
everywhere, so the returned first log-derivative is `0 ≠ 1`. -/
theorem c3_power_law_bug :
    log_derivatives [1, Real.exp 1, Real.exp 2] [1, Real.exp 1, Real.exp 2] 0.7
        = some ([0, 0, 0], [0, 0, 0], [0, 0, 0]) ∧
    parabolic_spline (([1, Real.exp 1, Real.exp 2] : List ℝ).map Real.log)
        (([1, Real.exp 1, Real.exp 2] : List ℝ).map Real.log) 1 0.7 = (0, 1, 0) ∧
    2 * (0:ℝ) * 1 + 1 = 1 ∧ ((0:ℝ) ≠ 1) := by
  refine ⟨?_, ?_, by norm_num, by norm_num⟩
  · rw [log_derivatives_some _ _ _ rfl, log_geom_samples, ldLoop_linear_data]
  · rw [log_geom_samples]
    exact ps_linear_012 1 0.7

section GseEvaluation

/-- Entry `i` of the clipped array: zero where the raw value undercuts
the noise floor, the raw value everywhere else. -/
theorem clipBelow_getD (clip : ℝ) (gs v : List ℝ) (i : ℕ)
    (hi : i < (clipBelow clip gs v).length) :
    (clipBelow clip gs v).getD i 0
      = if v.getD i 0 < clip * gs.getD i 0 then 0 else v.getD i 0 := by
  unfold clipBelow at hi ⊢
  have hgs : i < gs.length := List.lt_length_left_of_zipWith hi
  have hv : i < v.length := List.lt_length_right_of_zipWith hi
  rw [List.getD_eq_getElem _ _ hi, List.getElem_zipWith,
      List.getD_eq_getElem _ _ hgs, List.getD_eq_getElem _ _ hv]

/-- Reduction of `gse` once both smoothing passes are known. -/
theorem gse_eq_of (t r2 : List ℝ) (a T clip width : ℝ)
    (f df ddf g dg ddg : List ℝ)
    (h1 : log_derivatives t r2 0.7 = some (f, df, ddf))
    (h2 : log_derivatives (t.map fun ti => 1 / ti)
        (gse_G_s (4.1e-9 * T / 298) a f df ddf) 0.7 = some (g, dg, ddg)) :
    gse t r2 a T clip width
      = some (t.map fun ti => 1 / ti,
              gse_G_s (4.1e-9 * T / 298) a f df ddf,
              clipBelow clip (gse_G_s (4.1e-9 * T / 298) a f df ddf) (Gp_raw g dg ddg),
              clipBelow clip (gse_G_s (4.1e-9 * T / 298) a f df ddf) (Gpp_raw g dg ddg)) := by
  unfold gse
  rw [h1]
  dsimp only
  rw [h2]

/-- First smoothing pass of the one-point example. -/
theorem ld_single_one : log_derivatives [(1:ℝ)] [(1:ℝ)] 0.7 = some ([0], [0], [0]) := by
  rw [log_derivatives_some _ _ _ rfl]
  have h1 : ([(1:ℝ)] : List ℝ).map Real.log = [0] := by simp
  rw [h1, ldLoop_zero_data _ _ _ (by intro v hv; simpa using hv)]
  rfl

/-- Second smoothing pass of the one-point example (`log 0 = 0` under the
real-log junk-value convention). -/
theorem ld_single_zero : log_derivatives [(1:ℝ)] [(0:ℝ)] 0.7 = some ([0], [0], [0]) := by
  rw [log_derivatives_some [(1:ℝ)] [(0:ℝ)] 0.7 rfl]
  have h1 : ([(1:ℝ)] : List ℝ).map Real.log = [0] := by simp
  have h0 : ([(0:ℝ)] : List ℝ).map Real.log = [0] := by simp
  rw [h1, h0, ldLoop_zero_data _ _ _ (by intro v hv; simpa using hv)]
  rfl

/-- Value of `G_s` for the one-point example collapses to `[0]` (`f = 0` zeroes the
denominator and division by zero yields the junk value 0). -/
theorem gse_G_s_single (kT : ℝ) : gse_G_s kT 1 [0] [0] [0] = [0] := by
  simp [gse_G_s, zipWith3]

/-- Raw storage modulus of the one-point example. -/
theorem Gp_raw_single : Gp_raw [0] [0] [0] = [0] := by
  simp [Gp_raw, zipWith3]

/-- Raw loss modulus of the one-point example. -/
theorem Gpp_raw_single : Gpp_raw [0] [0] [0] = [0] := by
  simp [Gpp_raw, zipWith3]

/-- Clipping the one-point example. -/
theorem clip_single : clipBelow 0.03 [0] [0] = [0] := by
  simp [clipBelow]

/-- Full evaluation of `gse` on the one-point curve `t = r2 = [1]`. -/
theorem gse_single : gse [(1:ℝ)] [(1:ℝ)] 1 298 0.03 0.7 = some ([1], [0], [0], [0]) := by
  have hmap : ([(1:ℝ)] : List ℝ).map (fun ti => 1 / ti) = [1] := by norm_num
  have hGs : gse_G_s (4.1e-9 * 298 / 298) 1 [0] [0] [0] = [0] := gse_G_s_single _
  rw [gse_eq_of
      [(1:ℝ)] [(1:ℝ)] 1 298 0.03 0.7 [0] [0] [0] [0] [0] [0] ld_single_one
      (by rw [hmap, hGs]; exact ld_single_zero)]
  rw [hmap, hGs, Gp_raw_single, Gpp_raw_single, clip_single]

end GseEvaluation

/-- Claim C5: in `gse`, each returned storage-modulus entry is `0`
exactly where the raw `G'` value falls strictly below `clip·G_s` and is
the raw value otherwise; identically and independently for `G''` — the
two components, and the individual indices, are clipped independently. -/
theorem c5_noise_clip (t r2 : List ℝ) (a T clip width : ℝ)
    (w gs gp gpp : List ℝ)
    (h : gse t r2 a T clip width = some (w, gs, gp, gpp)) :
    ∃ g dg ddg, log_derivatives w gs 0.7 = some (g, dg, ddg) ∧
      (∀ i, i < gp.length → gp.getD i 0
         = if (Gp_raw g dg ddg).getD i 0 < clip * gs.getD i 0 then 0
           else (Gp_raw g dg ddg).getD i 0) ∧
      (∀ i, i < gpp.length → gpp.getD i 0
         = if (Gpp_raw g dg ddg).getD i 0 < clip * gs.getD i 0 then 0
           else (Gpp_raw g dg ddg).getD i 0) := by
  unfold gse at h
  split at h
  · exact absurd h (by simp)
  · rename_i f df ddf heq1
    split at h
    · exact absurd h (by simp)
    · rename_i g dg ddg heq2
      simp only [Option.some.injEq, Prod.mk.injEq] at h
      obtain ⟨hw, hgs, hgp, hgpp⟩ := h
      subst hw
      subst hgs
      subst hgp
      subst hgpp
      refine ⟨g, dg, ddg, heq2, ?_, ?_⟩
      · intro i hi
        exact clipBelow_getD _ _ _ i hi
      · intro i hi
        exact clipBelow_getD _ _ _ i hi

/-- Claim C5 witness: the one-point `gse` run (clipping a zero raw value
against a zero noise floor leaves it unchanged at `0`). -/
theorem c5_noise_clip_witness :
    ∃ g dg ddg, log_derivatives [(1:ℝ)] [(0:ℝ)] 0.7 = some (g, dg, ddg) ∧
      (∀ i, i < ([(0:ℝ)] : List ℝ).length → ([(0:ℝ)] : List ℝ).getD i 0
         = if (Gp_raw g dg ddg).getD i 0 < 0.03 * ([(0:ℝ)] : List ℝ).getD i 0 then 0
           else (Gp_raw g dg ddg).getD i 0) ∧
      (∀ i, i < ([(0:ℝ)] : List ℝ).length → ([(0:ℝ)] : List ℝ).getD i 0
         = if (Gpp_raw g dg ddg).getD i 0 < 0.03 * ([(0:ℝ)] : List ℝ).getD i 0 then 0
           else (Gpp_raw g dg ddg).getD i 0) :=
  c5_noise_clip [1] [1] 1 298 0.03 0.7 [1] [0] [0] [0] gse_single

/-- Claim C10: `log_derivatives` is scale-invariant — multiplying all
`f` values, or all `x` values, by a positive constant `k` leaves the
returned first- and second-log-derivative sequences unchanged (in log
space the rescaling is an additive shift that the Gaussian weights and
the quadratic fit coefficient are invariant under). -/
theorem c10_scale_invariance (x f : List ℝ) (width k : ℝ)
    (hx : ∀ u ∈ x, 0 < u) (hf : ∀ v ∈ f, 0 < v) (hk : 0 < k)
    (hlen : x.length = f.length) :
    (log_derivatives (x.map (fun u => k * u)) f width).map (fun r => (r.2.1, r.2.2))
        = (log_derivatives x f width).map (fun r => (r.2.1, r.2.2)) ∧
    (log_derivatives x (f.map (fun v => k * v)) width).map (fun r => (r.2.1, r.2.2))
        = (log_derivatives x f width).map (fun r => (r.2.1, r.2.2)) := by
  have hxmap : (x.map (fun u => k * u)).map Real.log
      = (x.map Real.log).map (fun u => u + Real.log k) := by
    rw [List.map_map, List.map_map]
    apply List.map_congr_left
    intro u hu
    simp only [Function.comp_apply]
    rw [Real.log_mul (ne_of_gt hk) (ne_of_gt (hx u hu))]
    ring
  have hfmap : (f.map (fun v => k * v)).map Real.log
      = (f.map Real.log).map (fun v => v + Real.log k) := by
    rw [List.map_map, List.map_map]
    apply List.map_congr_left
    intro v hv
    simp only [Function.comp_apply]
    rw [Real.log_mul (ne_of_gt hk) (ne_of_gt (hf v hv))]
    ring
  constructor
  · rw [log_derivatives_some _ _ _ (by simpa using hlen),
        log_derivatives_some _ _ _ hlen, hxmap, ldLoop_xshift]
  · rw [log_derivatives_some _ _ _ (by simpa using hlen),
        log_derivatives_some _ _ _ hlen, hfmap,
        ldLoop_fshift _ _ _ _ (by simpa using hlen)]

/-- Claim C10 witness at `x = f = [1]`, `k = 2`. -/
theorem c10_scale_invariance_witness :
    (log_derivatives (([(1:ℝ)] : List ℝ).map (fun u => 2 * u)) [(1:ℝ)] 0.7).map
        (fun r => (r.2.1, r.2.2))
      = (log_derivatives [(1:ℝ)] [(1:ℝ)] 0.7).map (fun r => (r.2.1, r.2.2)) ∧
    (log_derivatives [(1:ℝ)] (([(1:ℝ)] : List ℝ).map (fun v => 2 * v)) 0.7).map
        (fun r => (r.2.1, r.2.2))
      = (log_derivatives [(1:ℝ)] [(1:ℝ)] 0.7).map (fun r => (r.2.1, r.2.2)) :=
  c10_scale_invariance [1] [1] 0.7 2
    (by intro u hu; simp at hu; norm_num [hu])
    (by intro v hv; simp at hv; norm_num [hv])
    (by norm_num) rfl

/-- Claim C4: the spec says both smoothing passes of `gse` use the
caller-supplied bandwidth `width`.  In the source, `gse` accepts `width`
but never passes it on: both calls are `log_derivatives(t, r2)` and
`log_derivatives(s, G_s)`, which always use the default `0.7`.  Hence two
calls differing only in `width` are identical — refuting the claim that
they produce results fitted with different Gaussian bandwidths. -/
theorem c4_width_ignored (t r2 : List ℝ) (a T clip w1 w2 : ℝ) :
    gse t r2 a T clip w1 = gse t r2 a T clip w2 := rfl

/-- Claim C6: `fischer` computes exactly the spec's closed-form
expression — `(kT/D − bulk_visc_SI·a·c0)/c1` with
`d = a·(cos(angle·π/180) − 1)`, `c0 = 6π·sqrt(tanh(32·(d/a + 2)/(9π²)))`,
`c1 = −4·ln((2/π)·arctan2(d + 2a, 3a))`, `kT = 4.1e-9·T/298` and
`bulk_visc_SI = bulk_visc·1e-6` — as a pure function of its five inputs. -/
theorem c6_fischer_formula (D a contact_angle bulk_visc T : ℝ)
    (hD : 0 < D) (ha : 0 < a) :
    fischer D a contact_angle bulk_visc T =
      (4.1e-9 * T / 298 / D
        - bulk_visc * 1e-6 * a
          * (6 * Real.pi * Real.sqrt (Real.tanh (32
              * (a * (Real.cos (contact_angle * Real.pi / 180) - 1) / a + 2)
              / (9 * Real.pi ^ 2)))))
      / (-4 * Real.log ((2 / Real.pi)
          * arctan2 (a * (Real.cos (contact_angle * Real.pi / 180) - 1) + 2 * a)
              (3 * a))) := rfl

/-- Claim C6 witness at `D = 1`, `a = 1`, `contact_angle = 0`,
`bulk_visc = 1e-3`, `T = 298`. -/
theorem c6_fischer_formula_witness :
    fischer 1 1 0 1e-3 298 =
      (4.1e-9 * 298 / 298 / 1
        - 1e-3 * 1e-6 * 1
          * (6 * Real.pi * Real.sqrt (Real.tanh (32
              * (1 * (Real.cos (0 * Real.pi / 180) - 1) / 1 + 2)
              / (9 * Real.pi ^ 2)))))
      / (-4 * Real.log ((2 / Real.pi)
          * arctan2 (1 * (Real.cos (0 * Real.pi / 180) - 1) + 2 * 1) (3 * 1))) :=
  c6_fischer_formula 1 1 0 1e-3 298 (by norm_num) (by norm_num)

/-- At `contact_angle = 180°` the intermediate `d` equals `-2a`, the
`arctan2` argument collapses to `(0, 3a)`, and with `a = 1` the real-log
convention gives `c1 = -4·log 0 = 0`. -/
theorem fischer_c1_at_180 : fischer_c1 1 180 = 0 := by
  unfold fischer_c1 fischer_d
  rw [show (180:ℝ) * Real.pi / 180 = Real.pi by ring, Real.cos_pi]
  rw [show (1:ℝ) * (-1 - 1) + 2 * 1 = 0 by ring]
  unfold arctan2
  rw [if_pos (by norm_num : (0:ℝ) < 3 * 1)]
  rw [zero_div, Real.arctan_zero, mul_zero, Real.log_zero, mul_zero]

/-- Claim C7 counterexample: at `contact_angle = 180°` (with `D = a = 1`,
`bulk_visc = 1e-3`, `T = 298`) the divisor `c1` is zero, yet `fischer`
surfaces no computation error: it is a total function and silently
returns a plain value (the division-by-zero convention yields `0`; IEEE
arithmetic likewise returns a non-error value).  This refutes the claim
that the `c1 = 0` condition is surfaced as an error to the caller. -/
theorem c7_counterexample :
    fischer_c1 1 180 = 0 ∧ fischer 1 1 180 1e-3 298 = 0 := by
  refine ⟨fischer_c1_at_180, ?_⟩
  unfold fischer
  rw [fischer_c1_at_180, div_zero]

/-- Claim C7 (amended): `fischer` contains no division-by-zero check.
Whenever the inputs make `c1 = 0`, the quotient is taken anyway and the
function silently returns the junk value `0` of the division-by-zero
convention instead of raising a computation error. -/
theorem c7_no_singularity_check (D a contact_angle bulk_visc T : ℝ)
    (h : fischer_c1 a contact_angle = 0) :
    fischer D a contact_angle bulk_visc T = 0 := by
  unfold fischer
  rw [h, div_zero]

/-- Claim C7 witness: the degenerate inputs of the counterexample. -/
theorem c7_no_singularity_check_witness : fischer 1 1 180 1e-3 298 = 0 :=
  c7_no_singularity_check 1 1 180 1e-3 298 fischer_c1_at_180

/-- Claim C8 counterexample: the claim (and spec §8) say `contact_angle
= 90°` makes `d = a·(cos(90·π/180) − 1)` equal `0`; but `cos 90° = 0`,
so at `a = 1` the code computes `d = -1 ≠ 0` (in general `d = -a`;
`d = 0` would require `contact_angle = 0°`). -/
theorem c8_counterexample : fischer_d 1 90 = -1 ∧ ((-1 : ℝ) ≠ 0) := by
  constructor
  · unfold fischer_d
    rw [show (90:ℝ) * Real.pi / 180 = Real.pi / 2 by ring, Real.cos_pi_div_two]
    ring
  · norm_num

/-- Claim C8 (amended): `contact_angle = 90°` gives `d = -a` (not `0`);
with the fixed inputs `a = 1`, `contact_angle = 90°` the divisor
`c1 = -4·ln((2/π)·arctan2(1, 3))` is strictly positive, so the formula
for `fischer 0.5 1 90 1e-3 298` evaluates without division error to a
single deterministic value. -/
theorem c8_d_at_90 :
    (∀ a : ℝ, fischer_d a 90 = -a) ∧ 0 < fischer_c1 1 90 := by
  constructor
  · intro a
    unfold fischer_d
    rw [show (90:ℝ) * Real.pi / 180 = Real.pi / 2 by ring, Real.cos_pi_div_two]
    ring
  · unfold fischer_c1 fischer_d
    rw [show (90:ℝ) * Real.pi / 180 = Real.pi / 2 by ring, Real.cos_pi_div_two]
    rw [show (1:ℝ) * (0 - 1) + 2 * 1 = 1 by ring]
    unfold arctan2
    rw [if_pos (by norm_num : (0:ℝ) < 3 * 1)]
    have hpi := Real.pi_pos
    have h0 : (0:ℝ) < Real.arctan (1 / (3 * 1)) := by
      have := Real.arctan_strictMono (show (0:ℝ) < 1 / (3 * 1) by norm_num)
      rwa [Real.arctan_zero] at this
    have h2 : Real.arctan (1 / (3 * 1)) < Real.pi / 2 :=
      Real.arctan_lt_pi_div_two _
    have harg0 : (0:ℝ) < 2 / Real.pi * Real.arctan (1 / (3 * 1)) := by positivity
    have harg1 : 2 / Real.pi * Real.arctan (1 / (3 * 1)) < 1 := by
      rw [div_mul_eq_mul_div, div_lt_one hpi]
      linarith
    have hlog := Real.log_neg harg0 harg1
    linarith

/-- Claim C9 counterexample: the claim says mismatched lengths cause no
abort before the numeric operations, but `log_derivatives` asserts
`len(x) == len(f)` up front, so a length mismatch aborts immediately. -/
theorem c9_counterexample :
    (log_derivatives [(1:ℝ)] [(1:ℝ), 1] 0.7).isSome = false := by
  unfold log_derivatives
  norm_num

/-- Claim C9 (amended): `log_derivatives` aborts exactly on mismatched
lengths (the `assert`), and performs no positivity validation — any
equal-length input, including non-positive values, proceeds straight into
the log computations. -/
theorem c9_only_shape_checked (x f : List ℝ) (width : ℝ) :
    (log_derivatives x f width).isSome ↔ x.length = f.length := by
  unfold log_derivatives
  by_cases h : x.length = f.length
  · simp [h]
  · simp [h]
